import Mathlib

/-!
Shallow embedding of `src/schedule.py` (classes `Event` and `ScheduleManager`).

Python values are modelled as follows: Python `int` is `Int`, Python `str` is
`String`, `None`-able arguments are `Option`, and a Python exception that an
operation can raise is the error of an `Except`.  The JSON data file is
modelled by `FileData`/`JsonTop`/`StoreDict`/`EventDict` below; mappings are
typed according to the file format the program itself writes (string fields,
integer ids), with an `Option` wrapper marking key absence.  Mutating methods
return the new manager state explicitly; the `Bool` flag in the result of
`update_event`/`delete_event` records whether `save_events` was invoked
(i.e. whether the persisted file was rewritten).
-/

namespace Schedule

/-- Python exceptions relevant to `schedule.py`.  `KeyError` is raised by a
dict subscript on a missing key, `AttributeError` by calling `.get` on a
non-dict JSON value. -/
inductive PyExc where
  | KeyError
  | AttributeError
deriving DecidableEq, Repr

/-- Embeds `class Event` (schedule.py lines 12-56).  The constructor leaves
`id = None`; the manager assigns it. -/
structure Event where
  title : String
  date : String
  time : String
  description : String := ""
  id : Option Int := none
deriving DecidableEq, Repr

/-- A JSON mapping for one event, as read from / written to the data file.
`none` on `title`/`date`/`time`/`description` means the key is absent.
For `id`, the `dict.get` read in `from_dict` returns `None` both when the
key is absent and when it is null, so a single `Option Int` models the
value `Event.id` receives. -/
structure EventDict where
  id : Option Int := none
  title : Option String := none
  date : Option String := none
  time : Option String := none
  description : Option String := none
deriving DecidableEq, Repr

/-- Embeds `Event.to_dict` (schedule.py lines 31-39): every key is emitted. -/
def Event.to_dict (e : Event) : EventDict :=
  { id := e.id
    title := some e.title
    date := some e.date
    time := some e.time
    description := some e.description }

/-- Embeds `Event.from_dict` (schedule.py lines 41-51): the subscript reads
of the `title`, `date` and `time` keys raise `KeyError` when absent; the
`description` value defaults to the empty string via `dict.get`; the `id`
value defaults to `None`. -/
def Event.from_dict (d : EventDict) : Except PyExc Event :=
  match d.title with
  | none => .error .KeyError
  | some title =>
    match d.date with
    | none => .error .KeyError
    | some date =>
      match d.time with
      | none => .error .KeyError
      | some time =>
        .ok { title := title
              date := date
              time := time
              description := d.description.getD ""
              id := d.id }

/-- In-memory state of `class ScheduleManager` (schedule.py lines 59-72):
the event list and the `next_id` counter.  The data-file path plays no role
in the state; persistence is modelled by `save_events`/`load_events`. -/
structure ScheduleManager where
  events : List Event
  next_id : Int
deriving DecidableEq, Repr

/-- The state `__init__` establishes before `load_events` runs:
`events = []`, `next_id = 1`. -/
def emptyManager : ScheduleManager :=
  { events := [], next_id := 1 }

/-- Embeds `ScheduleManager.add_event` (lines 74-88): stamps `next_id` onto the
event, increments the counter, appends, saves, and returns the stamped
event. -/
def add_event (m : ScheduleManager) (e : Event) : ScheduleManager × Event :=
  let e' := { e with id := some m.next_id }
  ({ events := m.events ++ [e'], next_id := m.next_id + 1 }, e')

/-- Embeds `ScheduleManager.get_event` (lines 90-103): linear search, first event
whose `id` equals `event_id`, else `None`.  An event with `id = None` never
matches an integer `event_id`. -/
def get_event (m : ScheduleManager) (event_id : Int) : Option Event :=
  m.events.find? (fun e => decide (e.id = some event_id))

/-- The four `if <field> is not None` assignments inside
`ScheduleManager.update_event` (lines 125-132). -/
def applyUpdates (e : Event) (title date time description : Option String) :
    Event :=
  let e1 := match title with
    | some t => { e with title := t }
    | none => e
  let e2 := match date with
    | some d => { e1 with date := d }
    | none => e1
  let e3 := match time with
    | some t => { e2 with time := t }
    | none => e2
  match description with
  | some d => { e3 with description := d }
  | none => e3

/-- In-place mutation of the first element satisfying `p` (the object
`get_event` returned is mutated; it is the first match in the list). -/
def updateFirst (p : α → Bool) (f : α → α) : List α → List α
  | [] => []
  | x :: xs => if p x then f x :: xs else x :: updateFirst p f xs

/-- Embeds `ScheduleManager.update_event` (lines 105-135).  Result:
(new state, returned Bool, whether `save_events` ran). -/
def update_event (m : ScheduleManager) (event_id : Int)
    (title date time description : Option String) :
    ScheduleManager × Bool × Bool :=
  match get_event m event_id with
  | none => (m, false, false)
  | some _ =>
    ({ m with
        events := updateFirst (fun e => decide (e.id = some event_id))
          (fun e => applyUpdates e title date time description) m.events },
      true, true)

/-- Removal of the first element satisfying `p` (`self.events.remove(event)`
removes the first list element identical to the object `get_event` found,
which is the first event with the matching id). -/
def eraseFirst (p : α → Bool) : List α → List α
  | [] => []
  | x :: xs => if p x then xs else x :: eraseFirst p xs

/-- Embeds `ScheduleManager.delete_event` (lines 137-152).  Result:
(new state, returned Bool, whether `save_events` ran). -/
def delete_event (m : ScheduleManager) (event_id : Int) :
    ScheduleManager × Bool × Bool :=
  match get_event m event_id with
  | some _ =>
    ({ m with
        events := eraseFirst (fun e => decide (e.id = some event_id)) m.events },
      true, true)
  | none => (m, false, false)

/-- The sort key of `list_events`: `lambda e: (e.date, e.time)`, compared as
Python compares string tuples, i.e. lexicographically. -/
def ekey (e : Event) : String × String :=
  (e.date, e.time)

/-- Embeds the comparison `sorted` performs on the `(date, time)` string
pairs: lexicographic order. -/
def eventLe (a b : Event) : Prop :=
  a.date < b.date ∨ (a.date = b.date ∧ a.time ≤ b.time)

instance : DecidableRel eventLe := fun a b =>
  inferInstanceAs (Decidable (a.date < b.date ∨ (a.date = b.date ∧ a.time ≤ b.time)))

instance : IsTotal Event eventLe where
  total a b := by
    unfold eventLe
    rcases lt_trichotomy a.date b.date with h | h | h
    · exact Or.inl (Or.inl h)
    · rcases le_total a.time b.time with ht | ht
      · exact Or.inl (Or.inr ⟨h, ht⟩)
      · exact Or.inr (Or.inr ⟨h.symm, ht⟩)
    · exact Or.inr (Or.inl h)

instance : IsTrans Event eventLe where
  trans a b c hab hbc := by
    unfold eventLe at *
    rcases hab with h1 | ⟨h1, h1t⟩
    · rcases hbc with h2 | ⟨h2, _⟩
      · exact Or.inl (h1.trans h2)
      · exact Or.inl (h2 ▸ h1)
    · rcases hbc with h2 | ⟨h2, h2t⟩
      · exact Or.inl (h1 ▸ h2)
      · exact Or.inr ⟨h1.trans h2, h1t.trans h2t⟩

/-- Truthiness of the optional `date` argument of `list_events`:
`if date:` is `False` for `None` and for the empty string. -/
def truthy : Option String → Bool
  | none => false
  | some s => !s.isEmpty

/-- Embeds `ScheduleManager.list_events` (lines 154-166): a truthy date filter
selects by equality in stored order; otherwise all events are returned
sorted by the `(date, time)` key.  The `sorted` builtin is a stable sort, so
any stable sort — here insertion sort — computes the same list. -/
def list_events (m : ScheduleManager) (date : Option String) : List Event :=
  if truthy date then
    m.events.filter (fun e => decide (some e.date = date))
  else
    List.insertionSort eventLe m.events

/-- The top-level JSON mapping of the data file, typed per the format
`save_events` writes.  `none` means the key is absent. -/
structure StoreDict where
  next_id : Option Int := none
  events : Option (List EventDict) := none
deriving DecidableEq, Repr

/-- Embeds `ScheduleManager.save_events` (lines 168-175): the complete new file
contents: the `next_id` counter and the list of serialized events. -/
def save_events (m : ScheduleManager) : StoreDict :=
  { next_id := some m.next_id
    events := some (m.events.map Event.to_dict) }

/-- The list comprehension `[Event.from_dict(e) for e in ...]`: left to
right, stopping at the first exception. -/
def loadList : List EventDict → Except PyExc (List Event)
  | [] => .ok []
  | d :: ds =>
    match Event.from_dict d with
    | .error exc => .error exc
    | .ok ev =>
      match loadList ds with
      | .error exc => .error exc
      | .ok evs => .ok (ev :: evs)

/-- A parsed top-level JSON value.  Only a JSON object carries the typed
`StoreDict` payload; the other constructors stand for the remaining JSON
top-level shapes (e.g. `[1]` is `jarr [1]`, `5` is `jint 5`), none of which
has a `.get` method in Python. -/
inductive JsonTop where
  | jobj (d : StoreDict)
  | jarr (xs : List Int)
  | jint (n : Int)
  | jstr (s : String)
  | jbool (b : Bool)
  | jnull
deriving DecidableEq, Repr

/-- What `load_events` finds at `self.data_file`: no file at all, a file
whose text fails JSON parsing (`json.JSONDecodeError`), or a file parsing
to a JSON value. -/
inductive FileData where
  | noFile
  | badSyntax
  | parsed (j : JsonTop)
deriving DecidableEq, Repr

/-- Embeds `ScheduleManager.load_events` (lines 177-188), run on the `__init__`
state (`events = []`, `next_id = 1`).  Result: `.ok (state, warned)` where
`warned` records whether the `Warning: Could not load data` line was
printed, or `.error exc` for an exception the `except (JSONDecodeError,
KeyError)` clause does not catch.  A missing file leaves the initial state;
a JSON syntax error or a `KeyError` from `Event.from_dict` is caught and
resets the state; `.get` on a non-dict top level raises `AttributeError`,
which is not caught. -/
def load_events (fd : FileData) : Except PyExc (ScheduleManager × Bool) :=
  match fd with
  | .noFile => .ok (emptyManager, false)
  | .badSyntax => .ok ({ events := [], next_id := 1 }, true)
  | .parsed (.jobj d) =>
    match loadList (d.events.getD []) with
    | .ok evs => .ok ({ events := evs, next_id := d.next_id.getD 1 }, false)
    | .error .KeyError => .ok ({ events := [], next_id := 1 }, true)
    | .error exc => .error exc
  | .parsed _ => .error .AttributeError

/-- One mutating call on a `ScheduleManager`, as a client (e.g. the CLI)
issues them.  `add` carries the caller-constructed `Event` (whatever id it
carries is overwritten by `add_event`). -/
inductive Op where
  | add (e : Event)
  | update (event_id : Int) (title date time description : Option String)
  | del (event_id : Int)
deriving DecidableEq, Repr

/-- Runs a sequence of operations from state `m`; the second component
collects, in order, the `id` field of the `Event` each `add_event` call
returned. -/
def runOps : ScheduleManager → List Op → ScheduleManager × List (Option Int)
  | m, [] => (m, [])
  | m, .add e :: ops =>
    let p := add_event m e
    let r := runOps p.1 ops
    (r.1, p.2.id :: r.2)
  | m, .update event_id t d ti de :: ops =>
    runOps (update_event m event_id t d ti de).1 ops
  | m, .del event_id :: ops =>
    runOps (delete_event m event_id).1 ops

/-- Holds when `o` is a non-null id strictly below the counter `n`. -/
def idLt (o : Option Int) (n : Int) : Prop :=
  match o with
  | none => False
  | some i => i < n

instance (o : Option Int) (n : Int) : Decidable (idLt o n) :=
  match o with
  | none => isFalse (fun h => h)
  | some i => inferInstanceAs (Decidable (i < n))

/-- The store invariant: every event has a unique, non-null id strictly
less than `next_id`. -/
def Inv (m : ScheduleManager) : Prop :=
  (∀ e ∈ m.events, idLt e.id m.next_id) ∧
    (m.events.map (fun e => e.id)).Nodup

instance (m : ScheduleManager) : Decidable (Inv m) :=
  inferInstanceAs (Decidable (_ ∧ _))

/-- The ids `[s, s+1, ..., s+n-1]`. -/
def idRange (s : Int) : Nat → List Int
  | 0 => []
  | n + 1 => s :: idRange (s + 1) n

/-- Counts the `add` operations in a sequence. -/
def numAdds : List Op → Nat
  | [] => 0
  | .add _ :: ops => numAdds ops + 1
  | .update _ _ _ _ _ :: ops => numAdds ops
  | .del _ :: ops => numAdds ops

/-- A concrete event fixture (the scenario of spec section 8). -/
def evA : Event :=
  { title := "A", date := "2026-01-15", time := "14:00", id := some 1 }

/-- A concrete event fixture. -/
def evB : Event :=
  { title := "B", date := "2026-01-16", time := "10:30",
    description := "sync", id := some 2 }

/-- A concrete event fixture. -/
def evC : Event :=
  { title := "C", date := "2026-01-15", time := "12:00", id := some 3 }

/-- A concrete store fixture holding `evA`, `evB`, `evC`. -/
def wM : ScheduleManager :=
  { events := [evA, evB, evC], next_id := 4 }

/-- A concrete event whose `date` field is the empty string. -/
def evEmptyDate : Event :=
  { title := "E", date := "", time := "00:00", id := some 1 }

/-- A concrete store fixture holding `evEmptyDate`. -/
def wEmptyM : ScheduleManager :=
  { events := [evEmptyDate], next_id := 2 }

/-- A concrete operation sequence: add, delete the first event, add again. -/
def wOps : List Op :=
  [Op.add { title := "A", date := "2026-01-15", time := "14:00" },
   Op.del 1,
   Op.add { title := "B", date := "2026-01-16", time := "10:30" }]

end Schedule

namespace Schedule

/-! ### Helper lemmas -/

theorem from_dict_to_dict (e : Event) :
    Event.from_dict (Event.to_dict e) = .ok e := rfl

theorem loadList_map_to_dict (l : List Event) :
    loadList (l.map Event.to_dict) = .ok l := by
  induction l with
  | nil => rfl
  | cons e l ih => simp [loadList, from_dict_to_dict, ih]

/-! ### Claims -/

/-- C8: Event deserialization from a mapping succeeds whenever the `title`,
`date` and `time` keys are present — `description` defaulting to the empty
string if absent and `id` taken if present, otherwise unset — and fails with
a `KeyError` (the data error) if any of `title`, `date`, `time` is
missing. -/
theorem C8_from_dict_requires_title_date_time (d : EventDict) :
    (∀ t da ti, d.title = some t → d.date = some da → d.time = some ti →
      Event.from_dict d = .ok { title := t, date := da, time := ti,
                                  description := d.description.getD "",
                                  id := d.id }) ∧
    ((d.title = none ∨ d.date = none ∨ d.time = none) →
      Event.from_dict d = .error .KeyError) := by
  obtain ⟨i, t0, d0, t1, de⟩ := d
  rcases t0 with _ | t <;> rcases d0 with _ | da <;> rcases t1 with _ | ti <;>
    simp [Event.from_dict]

/-- Witness for C8 at concrete mappings. -/
theorem C8_witness :
    Event.from_dict { title := some "A", date := some "2026-01-15",
                      time := some "14:00" } =
      .ok { title := "A", date := "2026-01-15", time := "14:00",
            description := "", id := none } ∧
    Event.from_dict { id := some 9, date := some "2026-01-15",
                      time := some "14:00" } = .error .KeyError :=
  ⟨(C8_from_dict_requires_title_date_time _).1 "A" "2026-01-15" "14:00"
      rfl rfl rfl,
   (C8_from_dict_requires_title_date_time _).2 (Or.inl rfl)⟩

/-- C3: serializing any store state with `save_events` and loading it into a
fresh store reproduces the same event list (same ids, titles, dates, times,
descriptions, in the same order) and the same `next_id`, with no warning. -/
theorem C3_save_load_round_trip (m : ScheduleManager) :
    load_events (.parsed (.jobj (save_events m))) = .ok (m, false) := by
  obtain ⟨evs, nid⟩ := m
  simp [load_events, save_events, loadList_map_to_dict]

/-- C4: a missing data file yields the empty store with `next_id = 1` and no
error; a file with invalid JSON syntax, or one whose event mappings lack a
required key, yields a warning and the empty store with `next_id = 1`; on a
well-formed mapping a missing `next_id` key defaults to `1` (via `getD`) and
a missing `events` key defaults to the empty collection. -/
theorem C4_load_recovery_and_defaults :
    (load_events .noFile = .ok (emptyManager, false)) ∧
    (load_events .badSyntax = .ok ({ events := [], next_id := 1 }, true)) ∧
    (∀ d : StoreDict, loadList (d.events.getD []) = .error .KeyError →
      load_events (.parsed (.jobj d)) =
        .ok ({ events := [], next_id := 1 }, true)) ∧
    (∀ (d : StoreDict) (evs : List Event),
      loadList (d.events.getD []) = .ok evs →
      load_events (.parsed (.jobj d)) =
        .ok ({ events := evs, next_id := d.next_id.getD 1 }, false)) ∧
    (∀ nid : Option Int,
      load_events (.parsed (.jobj { next_id := nid, events := none })) =
        .ok ({ events := [], next_id := nid.getD 1 }, false)) := by
  refine ⟨rfl, rfl, ?_, ?_, ?_⟩
  · intro d h
    simp [load_events, h]
  · intro d evs h
    simp [load_events, h]
  · intro nid
    simp [load_events, loadList]

/-- Witness for C4: a file whose single event mapping lacks `title` resets
the store with a warning; a mapping with neither `next_id` nor `events`
loads as the empty store with `next_id = 1` and no warning. -/
theorem C4_witness :
    load_events (.parsed (.jobj { next_id := some 7,
                                  events := some [{ date := some "2026-01-15",
                                                    time := some "14:00" }] })) =
      .ok ({ events := [], next_id := 1 }, true) ∧
    load_events (.parsed (.jobj { next_id := none, events := none })) =
      .ok ({ events := [], next_id := 1 }, false) :=
  ⟨C4_load_recovery_and_defaults.2.2.1 _ rfl,
   C4_load_recovery_and_defaults.2.2.2.2 none⟩

/-- C10: the recovery path of `load_events` covers only JSON syntax errors
and missing keys; file content that is valid JSON whose top level is not a
mapping — such as the text consisting of a one-element array, or a bare
number — makes construction raise an uncaught `AttributeError` instead of
warning and resetting. -/
theorem C10_non_mapping_json_raises :
    load_events (.parsed (.jarr [1])) = .error .AttributeError ∧
    load_events (.parsed (.jint 5)) = .error .AttributeError :=
  ⟨rfl, rfl⟩

/-- C5: `update_event` and `delete_event` on an id matching no event both
return `False`, leave the whole store state (events and `next_id`) exactly
as it was, and do not invoke `save_events` (third component `false`). -/
theorem C5_update_delete_missing_id (m : ScheduleManager) (event_id : Int)
    (t d ti de : Option String)
    (h : ∀ e ∈ m.events, e.id ≠ some event_id) :
    update_event m event_id t d ti de = (m, false, false) ∧
    delete_event m event_id = (m, false, false) := by
  have hg : get_event m event_id = none := by
    rw [get_event, List.find?_eq_none]
    intro e he
    simpa using h e he
  exact ⟨by simp [update_event, hg], by simp [delete_event, hg]⟩

/-- Witness for C5: id 7 is absent from the fixture store. -/
theorem C5_witness :
    update_event wM 7 none none none none = (wM, false, false) ∧
    delete_event wM 7 = (wM, false, false) :=
  C5_update_delete_missing_id wM 7 none none none none (by decide)

theorem find?_first {p : α → Bool} {l : List α} {a : α}
    (h : l.find? p = some a) :
    ∃ l1 l2, l = l1 ++ a :: l2 ∧ p a = true ∧ ∀ x ∈ l1, p x = false := by
  induction l with
  | nil => simp [List.find?] at h
  | cons x xs ih =>
    cases hx : p x with
    | true =>
      rw [List.find?_cons_of_pos _ hx] at h
      injection h with h
      subst h
      exact ⟨[], xs, rfl, hx, by simp⟩
    | false =>
      rw [List.find?_cons_of_neg _ (by simp [hx])] at h
      obtain ⟨l1, l2, rfl, hpa, hl1⟩ := ih h
      refine ⟨x :: l1, l2, rfl, hpa, ?_⟩
      intro y hy
      rcases List.mem_cons.mp hy with rfl | hy
      · exact hx
      · exact hl1 y hy

theorem updateFirst_append {p : α → Bool} (f : α → α) {l1 : List α} {x : α}
    (l2 : List α) (h1 : ∀ y ∈ l1, p y = false) (hx : p x = true) :
    updateFirst p f (l1 ++ x :: l2) = l1 ++ f x :: l2 := by
  induction l1 with
  | nil => simp [updateFirst, hx]
  | cons y ys ih =>
    have hy : p y = false := h1 y (List.mem_cons_self y ys)
    simp only [List.cons_append, updateFirst, hy]
    simp only [Bool.false_eq_true, if_false, List.cons.injEq, true_and]
    exact ih (fun z hz => h1 z (List.mem_cons_of_mem y hz))

theorem updateFirst_id_fun {p : α → Bool} (l : List α) :
    updateFirst p (fun x => x) l = l := by
  induction l with
  | nil => rfl
  | cons x xs ih =>
    unfold updateFirst
    by_cases hx : p x <;> simp [hx, ih]

theorem applyUpdates_id (e : Event) (t d ti de : Option String) :
    (applyUpdates e t d ti de).id = e.id := by
  cases t <;> cases d <;> cases ti <;> cases de <;> rfl

theorem applyUpdates_title (e : Event) (t d ti de : Option String) :
    (applyUpdates e t d ti de).title = t.getD e.title := by
  cases t <;> cases d <;> cases ti <;> cases de <;> rfl

theorem applyUpdates_date (e : Event) (t d ti de : Option String) :
    (applyUpdates e t d ti de).date = d.getD e.date := by
  cases t <;> cases d <;> cases ti <;> cases de <;> rfl

theorem applyUpdates_time (e : Event) (t d ti de : Option String) :
    (applyUpdates e t d ti de).time = ti.getD e.time := by
  cases t <;> cases d <;> cases ti <;> cases de <;> rfl

theorem applyUpdates_description (e : Event) (t d ti de : Option String) :
    (applyUpdates e t d ti de).description = de.getD e.description := by
  cases t <;> cases d <;> cases ti <;> cases de <;> rfl

theorem applyUpdates_none (e : Event) :
    applyUpdates e none none none none = e := rfl

/-- C6: when an event with the given id exists, `update_event` returns
`True`, persists, keeps `next_id`, rewrites exactly the found (first,
hence by the invariant only) matching event in place — the new event takes
each explicitly provided field, keeps each unspecified field and keeps its
id — and leaves every other event untouched; with no fields supplied the
store is entirely unchanged and the call still returns `True`. -/
theorem C6_update_overwrites_exactly_given_fields (m : ScheduleManager)
    (event_id : Int) (t d ti de : Option String) (e : Event)
    (h : get_event m event_id = some e) :
    (update_event m event_id t d ti de).2.1 = true ∧
    (update_event m event_id t d ti de).2.2 = true ∧
    (update_event m event_id t d ti de).1.next_id = m.next_id ∧
    (∃ l1 l2, m.events = l1 ++ e :: l2 ∧
      (∀ x ∈ l1, x.id ≠ some event_id) ∧
      (update_event m event_id t d ti de).1.events =
        l1 ++ applyUpdates e t d ti de :: l2) ∧
    (applyUpdates e t d ti de).id = e.id ∧
    (applyUpdates e t d ti de).title = t.getD e.title ∧
    (applyUpdates e t d ti de).date = d.getD e.date ∧
    (applyUpdates e t d ti de).time = ti.getD e.time ∧
    (applyUpdates e t d ti de).description = de.getD e.description ∧
    update_event m event_id none none none none = (m, true, true) := by
  obtain ⟨l1, l2, hsplit, hpa, hl1⟩ := find?_first h
  have hupd : ∀ t d ti de,
      (update_event m event_id t d ti de).1.events =
        l1 ++ applyUpdates e t d ti de :: l2 := by
    intro t d ti de
    simp only [update_event, h, hsplit]
    exact updateFirst_append _ l2 hl1 hpa
  refine ⟨by simp [update_event, h], by simp [update_event, h],
    by simp [update_event, h], ⟨l1, l2, hsplit, ?_, hupd t d ti de⟩,
    applyUpdates_id e t d ti de, applyUpdates_title e t d ti de,
    applyUpdates_date e t d ti de, applyUpdates_time e t d ti de,
    applyUpdates_description e t d ti de, ?_⟩
  · intro x hx hc
    have := hl1 x hx
    simp [hc] at this
  · have hev := hupd none none none none
    rw [applyUpdates_none, ← hsplit] at hev
    simp only [update_event, h]
    cases m with
    | mk evs nid =>
      simp only [update_event, h] at hev
      simp_all

/-- Witness for C6: updating the date of event 1 in the fixture store
returns `True`. -/
theorem C6_witness :
    (update_event wM 1 none (some "2026-02-01") none none).2.1 = true :=
  (C6_update_overwrites_exactly_given_fields wM 1 none (some "2026-02-01")
    none none evA (by decide)).1

theorem eraseFirst_id_no_match {event_id : Int} {l : List Event}
    (hnd : (l.map (fun e => e.id)).Nodup) :
    ∀ e ∈ eraseFirst (fun e => decide (e.id = some event_id)) l,
      e.id ≠ some event_id := by
  induction l with
  | nil => intro e he; simp [eraseFirst] at he
  | cons x xs ih =>
    simp only [List.map_cons, List.nodup_cons] at hnd
    intro e he
    by_cases hx : x.id = some event_id
    · simp only [eraseFirst, hx, decide_eq_true_eq, if_true, decide_True] at he
      intro hc
      exact hnd.1 (by rw [hx, ← hc]; exact List.mem_map_of_mem _ he)
    · simp only [eraseFirst] at he
      rw [if_neg (by simp [hx])] at he
      rcases List.mem_cons.mp he with rfl | he
      · exact hx
      · exact ih hnd.2 e he

theorem find?_append_eq {p : α → Bool} {l1 : List α} (l2 : List α)
    (h : ∀ x ∈ l1, p x = false) :
    (l1 ++ l2).find? p = l2.find? p := by
  induction l1 with
  | nil => rfl
  | cons y ys ih =>
    have hy : p y = false := h y (List.mem_cons_self y ys)
    rw [List.cons_append, List.find?_cons_of_neg _ (by simp [hy])]
    exact ih (fun z hz => h z (List.mem_cons_of_mem y hz))

/-- C7: `get_event` is a total linear search — it returns the first (by
the uniqueness invariant, only) event whose id matches, decomposing the
list with no earlier match, and returns `None` exactly on absence; right
after `add_event` the returned event carries id `next_id` and is found by
`get_event` at that id; right after a `delete_event` that returned `True`,
`get_event` on that id returns `None`. -/
theorem C7_get_after_add_and_delete (m : ScheduleManager) (event_id : Int)
    (hInv : Inv m) :
    (get_event m event_id = none ↔ ∀ e ∈ m.events, e.id ≠ some event_id) ∧
    (∀ e, get_event m event_id = some e →
      e.id = some event_id ∧
      ∃ l1 l2, m.events = l1 ++ e :: l2 ∧
        ∀ x ∈ l1, x.id ≠ some event_id) ∧
    (∀ e0 : Event,
      (add_event m e0).2.id = some m.next_id ∧
      get_event (add_event m e0).1 m.next_id = some (add_event m e0).2) ∧
    ((delete_event m event_id).2.1 = true →
      get_event (delete_event m event_id).1 event_id = none) := by
  refine ⟨?_, ?_, ?_, ?_⟩
  · rw [get_event, List.find?_eq_none]
    constructor
    · intro h e he
      simpa using h e he
    · intro h e he
      simpa using h e he
  · intro e h
    obtain ⟨l1, l2, hsplit, hpa, hl1⟩ := find?_first h
    refine ⟨by simpa using hpa, l1, l2, hsplit, ?_⟩
    intro x hx hc
    have := hl1 x hx
    simp [hc] at this
  · intro e0
    refine ⟨rfl, ?_⟩
    have hnone : ∀ x ∈ m.events, decide (x.id = some m.next_id) = false := by
      intro x hx
      have := hInv.1 x hx
      cases hid : x.id with
      | none => simp
      | some i =>
        rw [hid] at this
        simp only [idLt] at this
        simp only [decide_eq_false_iff_not, Option.some.injEq]
        intro hc
        rw [hc] at this
        exact lt_irrefl _ this
    have hev : get_event (add_event m e0).1 m.next_id
        = List.find? (fun e => decide (e.id = some m.next_id))
            (m.events ++ [{ e0 with id := some m.next_id }]) := rfl
    rw [hev, find?_append_eq _ hnone, List.find?_cons_of_pos _ (by simp)]
    rfl
  · intro hdel
    rcases hg : get_event m event_id with _ | e
    · simp [delete_event, hg] at hdel
    · rw [get_event, List.find?_eq_none]
      intro x hx
      simp only [delete_event, hg] at hx
      simpa using eraseFirst_id_no_match hInv.2 x hx

/-- Witness for C7: in the fixture store, after deleting event 2 a lookup
of id 2 returns `None`. -/
theorem C7_witness :
    get_event (delete_event wM 2).1 2 = none :=
  (C7_get_after_add_and_delete wM 2 (by decide)).2.2.2 (by decide)

theorem eventLe_of_ekey_eq {a b : Event} (h : ekey a = ekey b) :
    eventLe a b := by
  unfold ekey at h
  injection h with h1 h2
  exact Or.inr ⟨h1, le_of_eq h2⟩

theorem list_events_none (m : ScheduleManager) :
    list_events m none = List.insertionSort eventLe m.events := rfl

theorem truthy_of_ne_empty {d : String} (hd : d ≠ "") :
    truthy (some d) = true := by
  show (!d.isEmpty) = true
  rw [Bool.not_eq_true', Bool.eq_false_iff]
  intro h
  exact hd ((String.isEmpty_iff d).mp h)

theorem insertionSort_filter_ekey (l : List Event) (k : String × String) :
    (List.insertionSort eventLe l).filter (fun e => decide (ekey e = k)) =
      l.filter (fun e => decide (ekey e = k)) := by
  have hmemk : ∀ {x : Event} {l2 : List Event},
      x ∈ l2.filter (fun e => decide (ekey e = k)) → ekey x = k := by
    intro x l2 hx
    simpa using (List.mem_filter.mp hx).2
  have hA : (l.filter (fun e => decide (ekey e = k))).Pairwise eventLe := by
    apply List.pairwise_of_forall_mem_list
    intro a ha b hb
    exact eventLe_of_ekey_eq (by rw [hmemk ha, hmemk hb])
  have hAS : (l.filter (fun e => decide (ekey e = k))).Sublist
      (List.insertionSort eventLe l) :=
    List.sublist_insertionSort hA (List.filter_sublist l)
  have hself : (l.filter (fun e => decide (ekey e = k))).filter
      (fun e => decide (ekey e = k)) = l.filter (fun e => decide (ekey e = k)) :=
    List.filter_eq_self.mpr (fun a ha => (List.mem_filter.mp ha).2)
  have hAB : (l.filter (fun e => decide (ekey e = k))).Sublist
      ((List.insertionSort eventLe l).filter (fun e => decide (ekey e = k))) := by
    have h2 := hAS.filter (fun e => decide (ekey e = k))
    rwa [hself] at h2
  have hperm : ((List.insertionSort eventLe l).filter
      (fun e => decide (ekey e = k))).Perm
        (l.filter (fun e => decide (ekey e = k))) :=
    (List.perm_insertionSort eventLe l).filter _
  exact (hAB.eq_of_length hperm.length_eq.symm).symm

/-- C2: with a nonempty date filter, `list_events` returns exactly the
events whose `date` equals the filter, as a filter of the stored list — in
insertion order, no sort applied (it is a sublist of the stored order);
with no filter it returns a permutation of all events, sorted by the
lexicographic `(date, time)` string key, and stably so: events with any
given key keep their stored relative order. -/
theorem C2_list_filter_order_and_sort (m : ScheduleManager) (d : String)
    (hd : d ≠ "") :
    list_events m (some d) =
      m.events.filter (fun e => decide (e.date = d)) ∧
    (m.events.filter (fun e => decide (e.date = d))).Sublist m.events ∧
    (list_events m none).Perm m.events ∧
    List.Sorted eventLe (list_events m none) ∧
    (∀ k : String × String,
      (list_events m none).filter (fun e => decide (ekey e = k)) =
        m.events.filter (fun e => decide (ekey e = k))) := by
  refine ⟨?_, List.filter_sublist m.events, ?_, ?_, ?_⟩
  · unfold list_events
    rw [if_pos (truthy_of_ne_empty hd)]
    apply List.filter_congr
    intro x hx
    exact decide_eq_decide.mpr (by simp)
  · rw [list_events_none]
    exact List.perm_insertionSort eventLe m.events
  · rw [list_events_none]
    exact List.sorted_insertionSort eventLe m.events
  · intro k
    rw [list_events_none]
    exact insertionSort_filter_ekey m.events k

/-- Witness for C2 at the fixture store and the filter 2026-01-15. -/
theorem C2_witness :
    list_events wM (some "2026-01-15") =
      wM.events.filter (fun e => decide (e.date = "2026-01-15")) :=
  (C2_list_filter_order_and_sort wM "2026-01-15" (by decide)).1

/-- C9: because the filter guard tests truthiness rather than presence,
passing the empty string as the date filter behaves exactly like passing
no filter (full sorted listing), and an event whose `date` field is the
empty string is never selected by any (necessarily nonempty) date
filter. -/
theorem C9_empty_string_filter_is_unfiltered (m : ScheduleManager) :
    list_events m (some "") = list_events m none ∧
    (∀ d : String, d ≠ "" → ∀ e : Event, e.date = "" →
      e ∉ list_events m (some d)) := by
  constructor
  · have ht : truthy (some "") = false := by decide
    unfold list_events
    rw [ht]
    simp [truthy]
  · intro d hd e he hmem
    unfold list_events at hmem
    rw [if_pos (truthy_of_ne_empty hd)] at hmem
    have := (List.mem_filter.mp hmem).2
    rw [he] at this
    simp only [decide_eq_true_eq, Option.some.injEq] at this
    exact hd this.symm

/-- Witness for C9: on the fixture store with an empty-date event, the
empty filter equals the unfiltered listing, and the event is not selected
by a nonempty filter. -/
theorem C9_witness :
    list_events wEmptyM (some "") = list_events wEmptyM none ∧
    evEmptyDate ∉ list_events wEmptyM (some "2026-01-15") :=
  ⟨(C9_empty_string_filter_is_unfiltered wEmptyM).1,
   (C9_empty_string_filter_is_unfiltered wEmptyM).2 "2026-01-15" (by decide)
     evEmptyDate rfl⟩

theorem update_event_next_id (m : ScheduleManager) (event_id : Int)
    (t d ti de : Option String) :
    (update_event m event_id t d ti de).1.next_id = m.next_id := by
  unfold update_event
  cases get_event m event_id <;> rfl

theorem delete_event_next_id (m : ScheduleManager) (event_id : Int) :
    (delete_event m event_id).1.next_id = m.next_id := by
  unfold delete_event
  cases get_event m event_id <;> rfl

theorem map_updateFirst {g : α → β} (p : α → Bool) (f : α → α)
    (hf : ∀ x, g (f x) = g x) (l : List α) :
    (updateFirst p f l).map g = l.map g := by
  induction l with
  | nil => rfl
  | cons x xs ih =>
    unfold updateFirst
    by_cases hx : p x <;> simp [hx, ih, hf]

theorem eraseFirst_sublist (p : α → Bool) (l : List α) :
    (eraseFirst p l).Sublist l := by
  induction l with
  | nil => exact List.Sublist.refl []
  | cons x xs ih =>
    unfold eraseFirst
    by_cases hx : p x
    · rw [if_pos hx]
      exact List.sublist_cons_self x xs
    · rw [if_neg hx]
      exact ih.cons₂ x

theorem idLt_lt {o : Option Int} {a b : Int} (h : idLt o a) (hab : a ≤ b) :
    idLt o b := by
  cases o with
  | none => exact h.elim
  | some i =>
    show i < b
    exact lt_of_lt_of_le h hab

theorem Inv_emptyManager : Inv emptyManager := by
  constructor
  · intro e he
    simp [emptyManager] at he
  · simp [emptyManager]

theorem Inv_add (m : ScheduleManager) (e : Event) (h : Inv m) :
    Inv (add_event m e).1 := by
  obtain ⟨h1, h2⟩ := h
  constructor
  · intro x hx
    rcases List.mem_append.mp hx with hx | hx
    · exact idLt_lt (h1 x hx) (le_of_lt (lt_add_one _))
    · rw [List.mem_singleton.mp hx]
      show m.next_id < m.next_id + 1
      exact lt_add_one _
  · have hev : (add_event m e).1.events
        = m.events ++ [{ e with id := some m.next_id }] := rfl
    show ((add_event m e).1.events.map (fun x => x.id)).Nodup
    rw [hev, List.map_append, List.nodup_append]
    refine ⟨h2, List.nodup_singleton _, ?_⟩
    intro a ha hb
    simp only [List.map_cons, List.map_nil, List.mem_singleton] at hb
    subst hb
    obtain ⟨x, hx, hxa⟩ := List.mem_map.mp ha
    have hlt := h1 x hx
    rw [hxa] at hlt
    exact lt_irrefl _ hlt

theorem Inv_update (m : ScheduleManager) (event_id : Int)
    (t d ti de : Option String) (h : Inv m) :
    Inv (update_event m event_id t d ti de).1 := by
  rcases hg : get_event m event_id with _ | e
  · simpa [update_event, hg] using h
  · obtain ⟨h1, h2⟩ := h
    have hmap : (update_event m event_id t d ti de).1.events.map
        (fun e => e.id) = m.events.map (fun e => e.id) := by
      simp only [update_event, hg]
      exact map_updateFirst _ _ (fun x => applyUpdates_id x t d ti de) _
    constructor
    · intro x hx
      have hx2 : x.id ∈ m.events.map (fun e => e.id) := by
        rw [← hmap]
        exact List.mem_map_of_mem _ hx
      obtain ⟨y, hy, hyx⟩ := List.mem_map.mp hx2
      have hlt := h1 y hy
      rw [hyx] at hlt
      rw [update_event_next_id]
      exact hlt
    · rw [hmap]
      exact h2

theorem Inv_delete (m : ScheduleManager) (event_id : Int) (h : Inv m) :
    Inv (delete_event m event_id).1 := by
  rcases hg : get_event m event_id with _ | e
  · simpa [delete_event, hg] using h
  · obtain ⟨h1, h2⟩ := h
    have hsub : (delete_event m event_id).1.events.Sublist m.events := by
      simp only [delete_event, hg]
      exact eraseFirst_sublist _ m.events
    constructor
    · intro x hx
      rw [delete_event_next_id]
      exact h1 x (hsub.subset hx)
    · exact h2.sublist (hsub.map _)

theorem runOps_fst_add (m : ScheduleManager) (e : Event) (ops : List Op) :
    (runOps m (.add e :: ops)).1 = (runOps (add_event m e).1 ops).1 := rfl

theorem runOps_Inv (ops : List Op) :
    ∀ m : ScheduleManager, Inv m → Inv (runOps m ops).1 := by
  induction ops with
  | nil => intro m h; exact h
  | cons op ops ih =>
    intro m h
    cases op with
    | add e => exact ih _ (Inv_add m e h)
    | update event_id t d ti de => exact ih _ (Inv_update m event_id t d ti de h)
    | del event_id => exact ih _ (Inv_delete m event_id h)

theorem runOps_ids (ops : List Op) :
    ∀ m : ScheduleManager,
      (runOps m ops).2 = (idRange m.next_id (numAdds ops)).map some := by
  induction ops with
  | nil => intro m; rfl
  | cons op ops ih =>
    intro m
    cases op with
    | add e =>
      have h1 : (runOps m (.add e :: ops)).2
          = some m.next_id :: (runOps (add_event m e).1 ops).2 := rfl
      have h2 : (add_event m e).1.next_id = m.next_id + 1 := rfl
      rw [h1, ih, h2]
      rfl
    | update event_id t d ti de =>
      have h1 : (runOps m (.update event_id t d ti de :: ops)).2
          = (runOps (update_event m event_id t d ti de).1 ops).2 := rfl
      rw [h1, ih, update_event_next_id]
      rfl
    | del event_id =>
      have h1 : (runOps m (.del event_id :: ops)).2
          = (runOps (delete_event m event_id).1 ops).2 := rfl
      rw [h1, ih, delete_event_next_id]
      rfl

theorem idRange_length (s : Int) : ∀ n, (idRange s n).length = n := by
  intro n
  induction n generalizing s with
  | zero => rfl
  | succ n ih => simp [idRange, ih]

theorem idRange_get :
    ∀ (n : Nat) (s : Int) (i : Nat), i < n →
      ∀ h : i < (idRange s n).length, (idRange s n).get ⟨i, h⟩ = s + i := by
  intro n
  induction n with
  | zero => intro s i hi; omega
  | succ n ih =>
    intro s i hi h
    cases i with
    | zero => simp [idRange]
    | succ i =>
      have hb : i < (idRange (s + 1) n).length := by
        rw [idRange_length]; omega
      have hstep : (idRange s (n + 1)).get ⟨i + 1, h⟩
          = (idRange (s + 1) n).get ⟨i, hb⟩ := by
        simp [idRange]
      rw [hstep, ih (s + 1) i (by omega) hb]
      omega

/-- C1: starting from the empty store with `next_id = 1`, over any sequence
of add/update/delete operations the ids returned by the successive
`add_event` calls are exactly `1, 2, 3, ...` — the i-th add returns
`some (1 + i)` — so ids strictly increase by 1 and are never reassigned
even when deletes intervene; and after the whole sequence (hence after
every operation, the sequence being arbitrary) every event in the
collection has a unique, non-null id strictly less than `next_id`. -/
theorem C1_sequential_ids_and_invariant (ops : List Op) :
    (∀ (i : Nat) (hi : i < (runOps emptyManager ops).2.length),
      (runOps emptyManager ops).2.get ⟨i, hi⟩ = some (1 + (i : Int))) ∧
    Inv (runOps emptyManager ops).1 := by
  constructor
  · intro i hi
    have hids : (runOps emptyManager ops).2
        = (idRange 1 (numAdds ops)).map some := runOps_ids ops emptyManager
    have hi2 : i < numAdds ops := by
      have hcopy := hi
      rw [hids, List.length_map, idRange_length] at hcopy
      exact hcopy
    rw [List.get_of_eq hids ⟨i, hi⟩]
    have hb : i < (idRange (1 : Int) (numAdds ops)).length := by
      rw [idRange_length]; exact hi2
    have hmap : ∀ hx, ((idRange 1 (numAdds ops)).map some).get ⟨i, hx⟩
        = some ((idRange (1 : Int) (numAdds ops)).get ⟨i, hb⟩) := by
      intro hx
      simp [List.get_eq_getElem]
    rw [hmap, idRange_get (numAdds ops) 1 i hi2 hb]
  · exact runOps_Inv ops emptyManager Inv_emptyManager

/-- Witness for C1: running add, delete id 1, add yields returned ids
`[1, 2]` at positions 0 and 1, and the invariant holds afterwards. -/
theorem C1_witness :
    (runOps emptyManager wOps).2.get ⟨1, by decide⟩ = some 2 ∧
    Inv (runOps emptyManager wOps).1 :=
  ⟨((C1_sequential_ids_and_invariant wOps).1 1 (by decide)).trans (by decide),
   (C1_sequential_ids_and_invariant wOps).2⟩

end Schedule
